import Mathlib

/-!
Shallow embedding of the term memory model of the lumen runtime core:
the associative map term (`erts/term/map.rs`) and the reference-counted
external binary (`erts/term/binary/process.rs`), together with theorems
checking the natural-language specification against the code.

The runtime's `Term` type and its total order live outside the verified
core, so the map model is parameterised by an arbitrary type `Term` with
a decidable equality (standing for the `Eq`/`Hash` bounds used by the
Rust `HashMap<Term, Term>`) and, where comparison is involved, a linear
order (standing for the runtime's total term order, i.e. Rust's `Ord`).
-/

namespace Lumen

section MapDefs

variable {Term : Type} [DecidableEq Term] [Inhabited Term]

/-- The contents of a Rust `HashMap<Term, Term>`, modelled as an
association list.  The list order models the hash map's unspecified
iteration order; all observable map operations in `map.rs` are
independent of it (sorting before comparison / hashing). -/
abbrev Assoc (Term : Type) := List (Term × Term)

/-- `HashMap::get`: the value of the first entry with the given key. -/
def hmGet : Assoc Term → Term → Option Term
  | [], _ => none
  | (k', v') :: rest, k => if k' = k then some v' else hmGet rest k

/-- `HashMap::insert`: replace the value of an existing entry for the
key, else append a new entry. -/
def hmInsert : Assoc Term → Term → Term → Assoc Term
  | [], k, v => [(k, v)]
  | (k', v') :: rest, k, v =>
    if k' = k then (k, v) :: rest else (k', v') :: hmInsert rest k v

/-- `HashMap::remove` (entry part): drop the entry with the given key. -/
def hmRemove : Assoc Term → Term → Assoc Term
  | [], _ => []
  | (k', v') :: rest, k => if k' = k then rest else (k', v') :: hmRemove rest k

/-- `HashMap::keys`: the keys in iteration order. -/
def hmKeys (m : Assoc Term) : List Term := m.map Prod.fst

/-- `Map` from `map.rs`.  The Rust struct also carries a `Header<Map>`
(GC metadata); none of the operations the claims are about read it, so
it is omitted from the model. -/
structure Map (Term : Type) where
  value : Assoc Term

/-- `Map::get`. -/
def Map.get (m : Map Term) (key : Term) : Option Term := hmGet m.value key

/-- `Map::is_key`. -/
def Map.is_key (m : Map Term) (key : Term) : Bool := (hmGet m.value key).isSome

/-- `Map::len`. -/
def Map.len (m : Map Term) : Nat := m.value.length

/-- `Map::keys`. -/
def Map.keys (m : Map Term) : List Term := hmKeys m.value

/-- `Map::values`. -/
def Map.values (m : Map Term) : List Term := m.value.map Prod.snd

/-- `Map::take`: if the key is present, clone the backing map, remove
the entry and return the removed value with the new map; else `None`.
The `.unwrap()` on the removed value is modelled by `Option.iget`,
reached only under `is_key`. -/
def Map.take (m : Map Term) (key : Term) : Option (Term × Assoc Term) :=
  if m.is_key key then
    some ((hmGet m.value key).iget, hmRemove m.value key)
  else
    none

/-- `Map::remove`: if the key is present, a clone without the entry;
else `None`. -/
def Map.remove (m : Map Term) (key : Term) : Option (Assoc Term) :=
  if m.is_key key then some (hmRemove m.value key) else none

/-- `Map::update`: if the key is present, a clone with the new value;
else `None`. -/
def Map.update (m : Map Term) (key : Term) (value : Term) : Option (Assoc Term) :=
  if m.is_key key then some (hmInsert m.value key value) else none

/-- `Map::put`: `self.get(key).map_or(false, |val| val == value)` is
exactly `m.get key = some value`; in that case `None`, else a clone
with the entry inserted. -/
def Map.put (m : Map Term) (key : Term) (value : Term) : Option (Assoc Term) :=
  if m.get key = some value then none else some (hmInsert m.value key value)

/-- `Map::from_slice`: insert every pair of the slice in order. -/
def Map.from_slice (slice : List (Term × Term)) : Map Term :=
  ⟨slice.foldl (fun acc kv => hmInsert acc kv.1 kv.2) []⟩

/-- The four copy-on-write method calls of `map.rs`, as data. -/
inductive MapOp (Term : Type) where
  | put (key value : Term)
  | update (key value : Term)
  | remove (key : Term)
  | take (key : Term)

/-- Result of a `MapOp` call. -/
inductive MapOpResult (Term : Type) where
  | assoc (result : Option (Assoc Term))
  | taken (result : Option (Term × Assoc Term))

/-- A method call on a receiver map: each method takes `&self` and
mutates only a local clone of `self.value`, so the receiver component
of the result is the receiver as the source leaves it. -/
def Map.call (m : Map Term) : MapOp Term → Map Term × MapOpResult Term
  | .put k v => (m, .assoc (m.put k v))
  | .update k v => (m, .assoc (m.update k v))
  | .remove k => (m, .assoc (m.remove k))
  | .take k => (m, .taken (m.take k))

end MapDefs

section SortDefs

variable {Term : Type} [LinearOrder Term] [Inhabited Term]

/-- Insert a key into an already ascending list (helper of the model of
`sort_unstable_by`). -/
def insertSorted (k : Term) : List Term → List Term
  | [] => [k]
  | x :: xs => if k ≤ x then k :: x :: xs else x :: insertSorted k xs

/-- Ascending sort by the term order.  `map.rs` uses
`sort_unstable_by(|k1, k2| k1.cmp(&k2))`; under a total order whose
`Equal` coincides with equality the sorted list is unique, so any
correct sort is a faithful model. -/
def sortTerms : List Term → List Term
  | [] => []
  | x :: xs => insertSorted x (sortTerms xs)

/-- `Map::sorted_keys`: the keys, sorted ascending by the term order. -/
def Map.sorted_keys (m : Map Term) : List Term := sortTerms (hmKeys m.value)

/-- `Ord` for `Vec<Term>`: lexicographic comparison. -/
def lexCompare : List Term → List Term → Ordering
  | [], [] => .eq
  | [], _ :: _ => .lt
  | _ :: _, [] => .gt
  | x :: xs, y :: ys =>
    match compare x y with
    | .eq => lexCompare xs ys
    | o => o

/-- The value loop of `Ord for Map`: scan the (equal) sorted key list,
returning the first non-`Equal` comparison of the two values stored
under a key.  The source's `.unwrap()` on the lookups is modelled by
`Option.iget`; it is reached only when both maps contain every scanned
key. -/
def valuesCmp (av bv : Assoc Term) : List Term → Ordering
  | [] => .eq
  | k :: ks =>
    match compare (hmGet av k).iget (hmGet bv k).iget with
    | .eq => valuesCmp av bv ks
    | o => o

/-- `Ord for Map`: size, then sorted keys, then values in key order. -/
def Map.cmp (a b : Map Term) : Ordering :=
  match compare a.len b.len with
  | .eq =>
    match lexCompare a.sorted_keys b.sorted_keys with
    | .eq => valuesCmp a.value b.value a.sorted_keys
    | o => o
  | o => o

/-- Helper of the model of `Hash for Map`: the sequence of terms fed to
the hasher while scanning the given keys. -/
def hashTraceAux (mv : Assoc Term) : List Term → List Term
  | [] => []
  | k :: ks => k :: (hmGet mv k).iget :: hashTraceAux mv ks

/-- `Hash for Map`, modelled by its write trace: for each key in sorted
order, the key then the value stored under it are written to the
hasher.  Two maps hash identically (for every hasher) exactly when
their write traces are equal. -/
def Map.hashTrace (m : Map Term) : List Term := hashTraceAux m.value m.sorted_keys

end SortDefs

section FromListDefs

/-- Modelled from the spec: the term-decoding entry point consumed by
the core ("Term decoding entry point: used recursively by composite-term
copying...").  A decoded term is the empty-list sentinel, a non-empty
list (its element sequence plus whether the tail ends in the sentinel —
the cons iterator of the runtime yields every element and then an error
for an improper tail), a tuple of its element terms, or some other
term kind. -/
inductive TypedView (Term : Type) where
  | nil
  | list (elems : List Term) (proper : Bool)
  | tuple (xs : List Term)
  | other

variable {Term : Type} [DecidableEq Term]

/-- The element loop of `Map::from_list`.  For each element: a 2-tuple
is inserted; a tuple of any other arity returns `None`; any element
that does not decode to a tuple falls into the `else { continue; }`
branch of the source and is skipped.  An improper tail makes the
iterator yield an error, which returns `None`. -/
def fromListLoop (decode : Term → TypedView Term) :
    List Term → Bool → Assoc Term → Option (Assoc Term)
  | [], proper, m => if proper then some m else none
  | e :: rest, proper, m =>
    match decode e with
    | .tuple xs =>
      match xs with
      | [a, b] => fromListLoop decode rest proper (hmInsert m a b)
      | _ => none
    | _ => fromListLoop decode rest proper m

/-- `Map::from_list`: the empty-list sentinel yields an empty map, a
cons cell runs the element loop, anything else yields `None`. -/
def Map.from_list (decode : Term → TypedView Term) (t : Term) : Option (Assoc Term) :=
  match decode t with
  | .nil => some []
  | .list elems proper => fromListLoop decode elems proper []
  | .tuple _ => none
  | .other => none

end FromListDefs

/-- A small concrete term type used to evaluate `Map.from_list` on
closed inputs: the list sentinel, cons cells, 2- and 3-tuples and
integers. -/
inductive CTerm where
  | nil
  | cons (hd tl : CTerm)
  | tup2 (a b : CTerm)
  | tup3 (a b c : CTerm)
  | int (n : Int)
deriving DecidableEq

/-- Element sequence and properness of a `CTerm` list. -/
def collectList : CTerm → List CTerm × Bool
  | .nil => ([], true)
  | .cons h t => let p := collectList t; (h :: p.1, p.2)
  | _ => ([], false)

/-- Modelled from the spec: the decoding entry point instantiated at
`CTerm` (decoding never allocates and is total over well-formed
terms). -/
def cdecode : CTerm → TypedView CTerm
  | .nil => TypedView.nil
  | .cons h t => TypedView.list (collectList (CTerm.cons h t)).1 (collectList (CTerm.cons h t)).2
  | .tup2 a b => TypedView.tuple [a, b]
  | .tup3 a b c => TypedView.tuple [a, b, c]
  | .int _ => TypedView.other

/-- Modelled from the spec: the text-encoding classification stored in
a binary's flags ("binary encoding classification (e.g., text vs.
arbitrary bytes) is a 1-of-N flag set"). -/
inductive Encoding where
  | raw
  | latin1
  | utf8
deriving DecidableEq

/-- Modelled from the spec: `BinaryFlags` = encoding classification
plus byte length ("binary metadata (text-encoding classification +
byte length)"). -/
structure BinaryFlags where
  encoding : Encoding
  size : Nat
deriving DecidableEq

/-- `BinaryFlags::new`: flags for an encoding, size not yet set. -/
def BinaryFlags.new (e : Encoding) : BinaryFlags := ⟨e, 0⟩

/-- `BinaryFlags::set_size`. -/
def BinaryFlags.set_size (f : BinaryFlags) (n : Nat) : BinaryFlags := { f with size := n }

/-- Modelled from the spec: the `Alloc` system exception — allocation
failure is the only non-success outcome. -/
inductive Alloc where
  | failure
deriving DecidableEq

/-- `usize` arithmetic in the source wraps modulo `2 ^ 64`
(`AtomicUsize::fetch_add` / `fetch_sub`). -/
def usizeMod : Nat := 2 ^ 64

namespace BinModel

/-- `ProcBinInner`: the shared payload block = atomic reference count,
flags and the raw bytes (bytes modelled as naturals below 256 is not
needed by any claim, so plain `Nat`). -/
structure ProcBinInner where
  refc : Nat
  flags : BinaryFlags
  data : List Nat
deriving DecidableEq

/-- `ProcBinInner::full_byte_len`. -/
def ProcBinInner.full_byte_len (inner : ProcBinInner) : Nat := inner.data.length

/-- `IndexByte for ProcBinInner`: `self.data[index]`.  The slice-index
panic on an out-of-bounds index is modelled as `none`. -/
def ProcBinInner.byte (inner : ProcBinInner) (index : Nat) : Option Nat :=
  inner.data.get? index

/-- `ProcBin`: the fixed-size handle.  The header and the intrusive
link carry no payload-observable state and are omitted; `inner` stands
for the payload block the handle's pointer resolves to. -/
structure ProcBin where
  inner : ProcBinInner
deriving DecidableEq

/-- `ProcBin::full_byte_len` delegates to the payload. -/
def ProcBin.full_byte_len (pb : ProcBin) : Nat := pb.inner.full_byte_len

/-- `IndexByte for ProcBin` delegates to the payload. -/
def ProcBin.byte (pb : ProcBin) (index : Nat) : Option Nat := pb.inner.byte index

/-- A freshly allocated payload block before initialization: no field
written yet (the core never assumes zeroed memory). -/
structure RawBlock where
  refc : Option Nat
  flags : Option BinaryFlags
  data : Option (List Nat)
deriving DecidableEq

/-- The allocation capability: `sys_alloc::alloc(layout)` either hands
back uninitialized memory or fails. -/
def sysAlloc (allocOk : Bool) : Except Alloc RawBlock :=
  if allocOk then .ok ⟨none, none, none⟩ else .error .failure

/-- `ProcBin::from_slice`: request the combined layout from the
allocator; on success write the count `1`, then the flags (encoding
classification with the slice's byte length), then copy the bytes, and
reify a handle over the written block (`ProcBinInner::from_raw_parts`,
modelled by reading the written fields back; the `getD` defaults are
unreachable since all three writes precede the read).  On failure
propagate the allocation error; no block exists and nothing is
written. -/
def ProcBin.from_slice (allocOk : Bool) (s : List Nat) (enc : Encoding) :
    Except Alloc (ProcBin × RawBlock) :=
  match sysAlloc allocOk with
  | .error e => .error e
  | .ok block =>
    let b1 := { block with refc := some 1 }
    let b2 := { b1 with flags := some ((BinaryFlags.new enc).set_size s.length) }
    let b3 := { b2 with data := some s }
    let inner : ProcBinInner := ⟨b3.refc.getD 0, b3.flags.getD ⟨enc, 0⟩, b3.data.getD []⟩
    .ok (⟨inner⟩, b3)

end BinModel

namespace RcModel

/-- The shared mutable state of one payload, as the refcount protocol
sees it: the current count plus, as model instrumentation, how many
times the payload has been deallocated. -/
structure ProcBinInner where
  refc : Nat
  freeCount : Nat
deriving DecidableEq

/-- The state just after `ProcBin::from_slice` wrote the payload:
count `1`, never deallocated. -/
def fresh : ProcBinInner := ⟨1, 0⟩

/-- `refc.fetch_sub(1, Release)`: returns the previous value; the
stored count wraps modulo `2 ^ 64`. -/
def fetchSub (s : ProcBinInner) : Nat × ProcBinInner :=
  (s.refc, { s with refc := (s.refc + (usizeMod - 1)) % usizeMod })

/-- `Clone for ProcBin`: `refc.fetch_add(1, AcqRel)` and a new handle
(the handle itself carries no payload state, so only the count is
modelled). -/
def ProcBin.clone (s : ProcBinInner) : ProcBinInner :=
  { s with refc := (s.refc + 1) % usizeMod }

/-- `ProcBin::drop_slow`: decrement again, and free the payload only if
the value before this second decrement was `1`. -/
def ProcBin.drop_slow (s : ProcBinInner) : ProcBinInner :=
  let p := fetchSub s
  if p.1 = 1 then { p.2 with freeCount := p.2.freeCount + 1 } else p.2

/-- `Drop for ProcBin`: decrement; if the previous value was not `1`
stop, else call `drop_slow` on the already-decremented state. -/
def ProcBin.drop (s : ProcBinInner) : ProcBinInner :=
  let p := fetchSub s
  if p.1 ≠ 1 then p.2 else ProcBin.drop_slow p.2

/-- `n` iterated handle duplications. -/
def clones (n : Nat) (s : ProcBinInner) : ProcBinInner := ProcBin.clone^[n] s

/-- `n` iterated handle drops. -/
def drops (n : Nat) (s : ProcBinInner) : ProcBinInner := ProcBin.drop^[n] s

end RcModel

namespace CopyModel

/-- The external-binary handle as the deep-copy protocol sees it: the
pointer to the shared payload, modelled as a payload id. -/
structure ProcBin where
  inner : Nat
deriving DecidableEq

/-- The state the deep-copy protocol acts on: the shared payload's
reference count, the payload byte blocks in existence, the handles on
the target heap, and the destination process's off-heap tracking list
(`virtual_alloc`). -/
structure State where
  refc : Nat
  payloads : List (List Nat)
  heap : List ProcBin
  vheap : List ProcBin
deriving DecidableEq

/-- `ProcBin::clone_to_heap`: allocate space for one handle on the
target heap and write a handle pointing at the same payload, with a
fresh empty link.  No payload block is created or copied and the
reference count is not touched.  On allocation failure the error
propagates. -/
def ProcBin.clone_to_heap (h : ProcBin) (st : State) (allocOk : Bool) :
    Except Alloc (ProcBin × State) :=
  if allocOk then
    let nh : ProcBin := ⟨h.inner⟩
    .ok (nh, { st with heap := st.heap ++ [nh] })
  else
    .error .failure

/-- `ProcBin::clone_to_process`: `clone_to_heap` into the process heap
(the `.unwrap()` is modelled by running the success path), then
`refc.fetch_add(1, AcqRel)`, then registration of the new handle on the
process's off-heap list. -/
def ProcBin.clone_to_process (h : ProcBin) (st : State) : ProcBin × State :=
  match ProcBin.clone_to_heap h st true with
  | .ok (nh, st') =>
    (nh, { st' with refc := (st'.refc + 1) % usizeMod, vheap := st'.vheap ++ [nh] })
  | .error _ => (h, st)

end CopyModel

/-! ## Helper lemmas about the association-list model -/

theorem hmGet_isSome_of_mem {Term : Type} [DecidableEq Term] {m : Assoc Term} {k : Term}
    (hk : k ∈ hmKeys m) : (hmGet m k).isSome := by
  induction m with
  | nil => simp [hmKeys] at hk
  | cons kv rest ih =>
    obtain ⟨k', v'⟩ := kv
    by_cases h : k' = k
    · simp [hmGet, h]
    · have hk' : k ∈ hmKeys rest := by
        simp only [hmKeys, List.map_cons, List.mem_cons] at hk
        rcases hk with h1 | h1
        · exact absurd h1.symm h
        · exact h1
      simpa [hmGet, h] using ih hk'

theorem hmGet_hmInsert_self {Term : Type} [DecidableEq Term] (m : Assoc Term) (k v : Term) :
    hmGet (hmInsert m k v) k = some v := by
  induction m with
  | nil => simp [hmInsert, hmGet]
  | cons kv rest ih =>
    obtain ⟨k', v'⟩ := kv
    by_cases h : k' = k
    · simp [hmInsert, hmGet, h]
    · simp [hmInsert, hmGet, h, ih]

theorem hmGet_hmInsert_ne {Term : Type} [DecidableEq Term] (m : Assoc Term) {k k' : Term}
    (v : Term) (h : k' ≠ k) : hmGet (hmInsert m k v) k' = hmGet m k' := by
  induction m with
  | nil => simp [hmInsert, hmGet, Ne.symm h]
  | cons kv rest ih =>
    obtain ⟨a, b⟩ := kv
    by_cases ha : a = k
    · subst ha
      simp [hmInsert, hmGet, Ne.symm h]
    · simp [hmInsert, hmGet, ha, ih]

theorem mem_insertSorted {Term : Type} [LinearOrder Term] {a k : Term} {l : List Term} :
    a ∈ insertSorted k l ↔ a = k ∨ a ∈ l := by
  induction l with
  | nil => simp [insertSorted]
  | cons x xs ih =>
    by_cases h : k ≤ x
    · simp [insertSorted, h]
    · simp only [insertSorted, if_neg h, List.mem_cons, ih]
      tauto

theorem mem_sortTerms {Term : Type} [LinearOrder Term] {a : Term} {l : List Term} :
    a ∈ sortTerms l ↔ a ∈ l := by
  induction l with
  | nil => simp [sortTerms]
  | cons x xs ih => simp [sortTerms, mem_insertSorted, ih]

theorem lexCompare_eq_iff {Term : Type} [LinearOrder Term] :
    ∀ xs ys : List Term, (lexCompare xs ys = .eq ↔ xs = ys)
  | [], [] => by simp [lexCompare]
  | [], _ :: _ => by simp [lexCompare]
  | _ :: _, [] => by simp [lexCompare]
  | x :: xs, y :: ys => by
    cases hc : compare x y with
    | eq =>
      have hxy : x = y := compare_eq_iff_eq.mp hc
      simp only [lexCompare, hc]
      simp [hxy, lexCompare_eq_iff xs ys]
    | lt =>
      simp only [lexCompare, hc, List.cons.injEq]
      constructor
      · intro h; cases h
      · rintro ⟨h1, -⟩
        rw [compare_eq_iff_eq.mpr h1] at hc
        cases hc
    | gt =>
      simp only [lexCompare, hc, List.cons.injEq]
      constructor
      · intro h; cases h
      · rintro ⟨h1, -⟩
        rw [compare_eq_iff_eq.mpr h1] at hc
        cases hc

theorem valuesCmp_eq_iff {Term : Type} [LinearOrder Term] [Inhabited Term]
    (av bv : Assoc Term) :
    ∀ ks : List Term,
      (valuesCmp av bv ks = .eq ↔ ∀ k ∈ ks, (hmGet av k).iget = (hmGet bv k).iget)
  | [] => by simp [valuesCmp]
  | k :: ks => by
    cases hc : compare (hmGet av k).iget (hmGet bv k).iget with
    | eq =>
      have hv : (hmGet av k).iget = (hmGet bv k).iget := compare_eq_iff_eq.mp hc
      simp only [valuesCmp, hc]
      rw [valuesCmp_eq_iff av bv ks]
      constructor
      · intro h a ha
        rcases List.mem_cons.mp ha with rfl | ha'
        · exact hv
        · exact h a ha'
      · intro h a ha
        exact h a (List.mem_cons_of_mem k ha)
    | lt =>
      simp only [valuesCmp, hc, List.mem_cons]
      constructor
      · intro h; cases h
      · intro h
        rw [compare_eq_iff_eq.mpr (h k (Or.inl rfl))] at hc
        cases hc
    | gt =>
      simp only [valuesCmp, hc, List.mem_cons]
      constructor
      · intro h; cases h
      · intro h
        rw [compare_eq_iff_eq.mpr (h k (Or.inl rfl))] at hc
        cases hc

theorem mem_sorted_keys {Term : Type} [LinearOrder Term] {m : Map Term} {k : Term} :
    k ∈ m.sorted_keys ↔ k ∈ hmKeys m.value := mem_sortTerms

theorem get_eq_iff_iget_eq {Term : Type} [LinearOrder Term] [Inhabited Term]
    {A B : Map Term} (hkeys : A.sorted_keys = B.sorted_keys) {k : Term}
    (hk : k ∈ A.sorted_keys) :
    (A.get k = B.get k ↔ (hmGet A.value k).iget = (hmGet B.value k).iget) := by
  have hkB' : k ∈ B.sorted_keys := by rw [← hkeys]; exact hk
  have hkA : k ∈ hmKeys A.value := mem_sorted_keys.mp hk
  have hkB : k ∈ hmKeys B.value := mem_sorted_keys.mp hkB'
  obtain ⟨va, hva⟩ := Option.isSome_iff_exists.mp (hmGet_isSome_of_mem hkA)
  obtain ⟨vb, hvb⟩ := Option.isSome_iff_exists.mp (hmGet_isSome_of_mem hkB)
  simp [Map.get, hva, hvb]

theorem map_cmp_eq_iff {Term : Type} [LinearOrder Term] [Inhabited Term] (A B : Map Term) :
    Map.cmp A B = .eq ↔
      (A.len = B.len ∧ A.sorted_keys = B.sorted_keys ∧
        ∀ k ∈ A.sorted_keys, A.get k = B.get k) := by
  unfold Map.cmp
  cases hl : compare A.len B.len with
  | lt =>
    constructor
    · intro h; cases h
    · rintro ⟨h1, -, -⟩
      rw [compare_eq_iff_eq.mpr h1] at hl
      cases hl
  | gt =>
    constructor
    · intro h; cases h
    · rintro ⟨h1, -, -⟩
      rw [compare_eq_iff_eq.mpr h1] at hl
      cases hl
  | eq =>
    have hlen : A.len = B.len := compare_eq_iff_eq.mp hl
    cases hk : lexCompare A.sorted_keys B.sorted_keys with
    | lt =>
      constructor
      · intro h; cases h
      · rintro ⟨-, h2, -⟩
        rw [(lexCompare_eq_iff _ _).mpr h2] at hk
        cases hk
    | gt =>
      constructor
      · intro h; cases h
      · rintro ⟨-, h2, -⟩
        rw [(lexCompare_eq_iff _ _).mpr h2] at hk
        cases hk
    | eq =>
      have hkeys : A.sorted_keys = B.sorted_keys := (lexCompare_eq_iff _ _).mp hk
      show valuesCmp A.value B.value A.sorted_keys = .eq ↔ _
      rw [valuesCmp_eq_iff A.value B.value A.sorted_keys]
      constructor
      · intro h
        exact ⟨hlen, hkeys, fun k hkmem =>
          (get_eq_iff_iget_eq hkeys hkmem).mpr (h k hkmem)⟩
      · rintro ⟨-, -, h3⟩
        exact fun k hkmem => (get_eq_iff_iget_eq hkeys hkmem).mp (h3 k hkmem)

theorem hashTraceAux_congr {Term : Type} [LinearOrder Term] [Inhabited Term]
    {av bv : Assoc Term} :
    ∀ {ks : List Term}, (∀ k ∈ ks, (hmGet av k).iget = (hmGet bv k).iget) →
      hashTraceAux av ks = hashTraceAux bv ks
  | [], _ => rfl
  | k :: ks, h => by
    simp only [hashTraceAux, h k (List.mem_cons_self k ks)]
    rw [hashTraceAux_congr (fun k' hk' => h k' (List.mem_cons_of_mem k hk'))]

/-! ## Claim theorems -/

/-- Claim C3: for all maps `A`, `B`, `A.cmp B = Equal` iff their
lengths agree, their ascending-sorted key sequences (under the total
term order) are equal, and all corresponding values in key order are
equal; otherwise the first differing criterion — length, then sorted
keys (compared lexicographically as the `Vec` order does), then the
first differing value in key order — determines the result. -/
theorem map_cmp_law {Term : Type} [LinearOrder Term] [Inhabited Term] (A B : Map Term) :
    (Map.cmp A B = .eq ↔
      A.len = B.len ∧ A.sorted_keys = B.sorted_keys ∧
        ∀ k ∈ A.sorted_keys, A.get k = B.get k)
    ∧ (A.len ≠ B.len → Map.cmp A B = compare A.len B.len)
    ∧ (A.len = B.len → A.sorted_keys ≠ B.sorted_keys →
        Map.cmp A B = lexCompare A.sorted_keys B.sorted_keys)
    ∧ (A.len = B.len → A.sorted_keys = B.sorted_keys →
        Map.cmp A B = valuesCmp A.value B.value A.sorted_keys) := by
  refine ⟨map_cmp_eq_iff A B, ?_, ?_, ?_⟩
  · intro hne
    unfold Map.cmp
    cases hl : compare A.len B.len with
    | lt => rfl
    | gt => rfl
    | eq => exact absurd (compare_eq_iff_eq.mp hl) hne
  · intro hlen hkne
    unfold Map.cmp
    rw [compare_eq_iff_eq.mpr hlen]
    cases hk : lexCompare A.sorted_keys B.sorted_keys with
    | lt => rfl
    | gt => rfl
    | eq => exact absurd ((lexCompare_eq_iff _ _).mp hk) hkne
  · intro hlen hkeq
    unfold Map.cmp
    rw [compare_eq_iff_eq.mpr hlen, (lexCompare_eq_iff _ _).mpr hkeq]

/-- Witness for C3, covering each hypothesis of the three conditional
clauses: maps differing in length, differing in sorted keys at equal
length, and differing only in one value. -/
theorem map_cmp_law_witness :
    (Map.cmp (⟨[((1 : Int), (10 : Int)), (2, 20)]⟩ : Map Int) ⟨[(1, 10)]⟩
      = compare (Map.len (⟨[((1 : Int), (10 : Int)), (2, 20)]⟩ : Map Int))
          (Map.len (⟨[((1 : Int), (10 : Int))]⟩ : Map Int)))
    ∧ (Map.cmp (⟨[((1 : Int), (10 : Int)), (2, 20)]⟩ : Map Int) ⟨[(1, 10), (3, 20)]⟩
      = lexCompare (Map.sorted_keys (⟨[((1 : Int), (10 : Int)), (2, 20)]⟩ : Map Int))
          (Map.sorted_keys (⟨[((1 : Int), (10 : Int)), (3, 20)]⟩ : Map Int)))
    ∧ (Map.cmp (⟨[((1 : Int), (10 : Int)), (2, 20)]⟩ : Map Int) ⟨[(1, 10), (2, 99)]⟩
      = valuesCmp [((1 : Int), (10 : Int)), (2, 20)] [(1, 10), (2, 99)]
          (Map.sorted_keys (⟨[((1 : Int), (10 : Int)), (2, 20)]⟩ : Map Int))) :=
  ⟨(map_cmp_law _ _).2.1 (by decide),
   (map_cmp_law _ _).2.2.1 (by decide) (by decide),
   (map_cmp_law _ _).2.2.2 (by decide) (by decide)⟩

/-- Claim C6: maps that compare `Equal` produce identical hasher write
traces — hashing iterates the keys in ascending sorted order and folds
in each key/value pair, so it is insertion-order independent. -/
theorem map_hash_consistent {Term : Type} [LinearOrder Term] [Inhabited Term]
    (A B : Map Term) (h : Map.cmp A B = .eq) : Map.hashTrace A = Map.hashTrace B := by
  obtain ⟨-, hkeys, hvals⟩ := (map_cmp_eq_iff A B).mp h
  unfold Map.hashTrace
  rw [← hkeys]
  exact hashTraceAux_congr fun k hk =>
    (get_eq_iff_iget_eq hkeys hk).mp (hvals k hk)

/-- Witness for C6: the pair from the spec's test, built with the two
insertion orders `[(1, x), (2, y)]` and `[(2, y), (1, x)]`. -/
theorem map_hash_consistent_witness :
    Map.cmp (Map.from_slice [((1 : Int), (10 : Int)), (2, 20)])
        (Map.from_slice [((2 : Int), (20 : Int)), (1, 10)]) = .eq
    ∧ Map.hashTrace (Map.from_slice [((1 : Int), (10 : Int)), (2, 20)])
      = Map.hashTrace (Map.from_slice [((2 : Int), (20 : Int)), (1, 10)]) :=
  ⟨by decide, map_hash_consistent _ _ (by decide)⟩

/-- Claim C4, counterexample: `put` does not always succeed — on a map
where the key is already bound to an equal value it returns the absent
result, refuting "put always returns a new association, regardless of
whether the key is missing or already present with the same value". -/
theorem map_put_counterexample :
    Map.is_key (⟨[((1 : Int), (10 : Int))]⟩ : Map Int) 1 = true
    ∧ Map.put (⟨[((1 : Int), (10 : Int))]⟩ : Map Int) 1 10 = none := by decide

/-- Claim C4, amended: `take`, `remove` and `update` return the absent
result exactly when the key is missing, while `put` returns the absent
result exactly when the key is already present with an equal value
(and otherwise returns a new association). -/
theorem map_absent_result_asymmetry {Term : Type} [DecidableEq Term] [Inhabited Term]
    (m : Map Term) (k v : Term) :
    (m.take k = none ↔ m.is_key k = false)
    ∧ (m.remove k = none ↔ m.is_key k = false)
    ∧ (m.update k v = none ↔ m.is_key k = false)
    ∧ (m.put k v = none ↔ m.get k = some v) := by
  refine ⟨?_, ?_, ?_, ?_⟩
  · by_cases h : m.is_key k <;> simp [Map.take, h]
  · by_cases h : m.is_key k <;> simp [Map.remove, h]
  · by_cases h : m.is_key k <;> simp [Map.update, h]
  · by_cases h : m.get k = some v <;> simp [Map.put, h]

/-- Witness for C4 (amended), instantiated at a concrete map with a
missing key. -/
theorem map_absent_result_asymmetry_witness :
    (Map.take (⟨[((1 : Int), (10 : Int))]⟩ : Map Int) 2 = none
      ↔ Map.is_key (⟨[((1 : Int), (10 : Int))]⟩ : Map Int) 2 = false)
    ∧ (Map.remove (⟨[((1 : Int), (10 : Int))]⟩ : Map Int) 2 = none
      ↔ Map.is_key (⟨[((1 : Int), (10 : Int))]⟩ : Map Int) 2 = false)
    ∧ (Map.update (⟨[((1 : Int), (10 : Int))]⟩ : Map Int) 2 20 = none
      ↔ Map.is_key (⟨[((1 : Int), (10 : Int))]⟩ : Map Int) 2 = false)
    ∧ (Map.put (⟨[((1 : Int), (10 : Int))]⟩ : Map Int) 2 20 = none
      ↔ Map.get (⟨[((1 : Int), (10 : Int))]⟩ : Map Int) 2 = some 20) :=
  map_absent_result_asymmetry ⟨[(1, 10)]⟩ 2 20

/-- Claim C10: `put k v` returns the absent result exactly when the map
already binds `k` to a value equal to `v`; otherwise it returns a new
association in which `k` maps to `v` and every other binding is
unchanged. -/
theorem map_put_spec {Term : Type} [DecidableEq Term] (m : Map Term) (k v : Term) :
    (m.put k v = none ↔ m.get k = some v)
    ∧ (m.get k ≠ some v →
        m.put k v = some (hmInsert m.value k v)
        ∧ hmGet (hmInsert m.value k v) k = some v
        ∧ ∀ k', k' ≠ k → hmGet (hmInsert m.value k v) k' = hmGet m.value k') := by
  constructor
  · by_cases h : m.get k = some v <;> simp [Map.put, h]
  · intro h
    exact ⟨by simp [Map.put, h], hmGet_hmInsert_self m.value k v,
      fun k' hk' => hmGet_hmInsert_ne m.value v hk'⟩

/-- Witness for C10: inserting a fresh key into `{1 : 10}`. -/
theorem map_put_spec_witness :
    (Map.put (⟨[((1 : Int), (10 : Int))]⟩ : Map Int) 2 20 = none
      ↔ Map.get (⟨[((1 : Int), (10 : Int))]⟩ : Map Int) 2 = some 20)
    ∧ (Map.put (⟨[((1 : Int), (10 : Int))]⟩ : Map Int) 2 20
        = some (hmInsert [((1 : Int), (10 : Int))] 2 20)
      ∧ hmGet (hmInsert [((1 : Int), (10 : Int))] 2 20) 2 = some 20
      ∧ ∀ k', k' ≠ 2 →
          hmGet (hmInsert [((1 : Int), (10 : Int))] 2 20) k'
            = hmGet [((1 : Int), (10 : Int))] k') :=
  ⟨(map_put_spec ⟨[(1, 10)]⟩ 2 20).1, (map_put_spec ⟨[(1, 10)]⟩ 2 20).2 (by decide)⟩

/-- Claim C7: each of `put`, `update`, `remove`, `take` leaves the
receiver untouched — after the call the receiver, hence its length, its
keys and every `get` result, are unchanged (the methods mutate only a
local clone of the backing map). -/
theorem map_copy_on_write {Term : Type} [DecidableEq Term] [Inhabited Term]
    (m : Map Term) (op : MapOp Term) :
    (m.call op).1 = m
    ∧ (m.call op).1.len = m.len
    ∧ (m.call op).1.keys = m.keys
    ∧ ∀ k, (m.call op).1.get k = m.get k := by
  have h : (m.call op).1 = m := by cases op <;> rfl
  exact ⟨h, by rw [h], by rw [h], fun k => by rw [h]⟩

/-- Witness for C7: the spec's example — `M = {1 : "a"}` (values being
terms, `10` stands for `"a"` and `20` for `"b"`): `M.put 2 20` returns
the new association `{1 : 10, 2 : 20}` while `M` still has length 1 and
`M.get 2 = none`. -/
theorem map_copy_on_write_witness :
    (Map.call (⟨[((1 : Int), (10 : Int))]⟩ : Map Int) (MapOp.put 2 20)).1
      = (⟨[((1 : Int), (10 : Int))]⟩ : Map Int)
    ∧ Map.put (⟨[((1 : Int), (10 : Int))]⟩ : Map Int) 2 20 = some [(1, 10), (2, 20)]
    ∧ Map.len (⟨[((1 : Int), (10 : Int))]⟩ : Map Int) = 1
    ∧ Map.get (⟨[((1 : Int), (10 : Int))]⟩ : Map Int) 2 = none :=
  ⟨(map_copy_on_write ⟨[(1, 10)]⟩ (MapOp.put 2 20)).1, by decide, by decide, by decide⟩

/-- Claim C5: evaluation of `Map::from_list` at the failing input.  The
source's `else { continue; }` branch silently skips any element that
does not decode to a tuple, so the proper list `[1, {2, 3}]` yields the
association `{2 : 3}` instead of the "no association" the spec
requires; a tuple of wrong arity, by contrast, does yield `none`. -/
theorem from_list_skips_non_tuples :
    Map.from_list cdecode
        (CTerm.cons (CTerm.int 1)
          (CTerm.cons (CTerm.tup2 (CTerm.int 2) (CTerm.int 3)) CTerm.nil))
      = some [(CTerm.int 2, CTerm.int 3)]
    ∧ Map.from_list cdecode (CTerm.cons (CTerm.int 1) CTerm.nil) = some []
    ∧ Map.from_list cdecode
        (CTerm.cons (CTerm.tup3 (CTerm.int 1) (CTerm.int 2) (CTerm.int 3)) CTerm.nil)
      = none := by decide

/-- Claim C1: evaluation of the destruction protocol.  `Drop` already
decrements the count, and `drop_slow` decrements it a second time
before testing for `1`, so on the last drop the test sees `0` and the
payload is never deallocated: after `N` duplications and `N + 1` drops
the deallocation count is `0`, not `1` (shown for `N = 0` and `N = 2`),
and the count has wrapped to `2 ^ 64 - 1`. -/
theorem procbin_refcount_never_freed :
    (RcModel.drops 1 (RcModel.clones 0 RcModel.fresh)).freeCount = 0
    ∧ (RcModel.drops 3 (RcModel.clones 2 RcModel.fresh)).freeCount = 0
    ∧ (RcModel.drops 1 (RcModel.clones 0 RcModel.fresh)).refc = usizeMod - 1 := by decide

/-- Claim C2, counterexample: `clone_to_heap` leaves the shared
payload's reference count unchanged (here `1`, not `2`) — the count is
incremented by `clone_to_process`, after the heap-level copy. -/
theorem clone_to_heap_no_increment :
    CopyModel.ProcBin.clone_to_heap ⟨0⟩ ⟨1, [[42]], [], []⟩ true
      = .ok (⟨0⟩, ⟨1, [[42]], [⟨0⟩], []⟩) := rfl

/-- Claim C2, amended: `clone_to_heap` allocates only a new fixed-size
handle referencing the same payload on the target heap, copying no
payload bytes and leaving the reference count unchanged (and propagates
allocation failure); the increment of the count by exactly one — and
the off-heap registration — are performed by `clone_to_process` after
the heap-level copy. -/
theorem clone_to_heap_shares_payload (h : CopyModel.ProcBin) (st : CopyModel.State) :
    (CopyModel.ProcBin.clone_to_heap h st true
      = .ok (⟨h.inner⟩, { st with heap := st.heap ++ [⟨h.inner⟩] }))
    ∧ (CopyModel.ProcBin.clone_to_heap h st false = .error .failure)
    ∧ ((CopyModel.ProcBin.clone_to_process h st).1.inner = h.inner)
    ∧ ((CopyModel.ProcBin.clone_to_process h st).2.refc = (st.refc + 1) % usizeMod)
    ∧ ((CopyModel.ProcBin.clone_to_process h st).2.payloads = st.payloads)
    ∧ ((CopyModel.ProcBin.clone_to_process h st).2.vheap = st.vheap ++ [⟨h.inner⟩]) :=
  ⟨rfl, rfl, rfl, rfl, rfl, rfl⟩

/-- Claim C8: `from_slice` either fully succeeds — the block holds a
reference count of `1`, flags recording the encoding classification and
the byte length equal to the slice's length, and a copy of the input
bytes, and the returned handle wraps exactly that block — or, on
allocation failure, propagates the failure with no block written. -/
theorem from_slice_atomic (s : List Nat) (enc : Encoding) :
    (BinModel.ProcBin.from_slice true s enc
      = .ok (⟨⟨1, ⟨enc, s.length⟩, s⟩⟩, ⟨some 1, some ⟨enc, s.length⟩, some s⟩))
    ∧ (BinModel.ProcBin.from_slice false s enc = .error .failure) :=
  ⟨rfl, rfl⟩

/-- Claim C9: under the caller-guaranteed bound `index < length`,
`byte_at` returns the byte stored at that position of the payload; the
out-of-bounds (panic) branch, modelled as `none`, is not taken. -/
theorem byte_at_in_bounds (pb : BinModel.ProcBin) (index : Nat)
    (h : index < pb.full_byte_len) :
    BinModel.ProcBin.byte pb index = some (pb.inner.data.get ⟨index, h⟩) := by
  unfold BinModel.ProcBin.byte BinModel.ProcBinInner.byte
  exact List.get?_eq_get h

/-- Witness for C9: byte 2 of the 3-byte payload `[7, 8, 9]`. -/
theorem byte_at_in_bounds_witness :
    2 < (BinModel.ProcBin.mk ⟨1, ⟨Encoding.raw, 3⟩, [7, 8, 9]⟩).full_byte_len
    ∧ BinModel.ProcBin.byte (BinModel.ProcBin.mk ⟨1, ⟨Encoding.raw, 3⟩, [7, 8, 9]⟩) 2
      = some 9 :=
  ⟨by decide,
   (byte_at_in_bounds (BinModel.ProcBin.mk ⟨1, ⟨Encoding.raw, 3⟩, [7, 8, 9]⟩) 2
      (by decide)).trans (by decide)⟩

end Lumen
